import Mathlib

/-!
Shallow embedding of the containers library (src/Vector.h, src/ForwardList.h,
src/HashMap.h) and verification of the specification claims about it.

Modelling conventions:
- A SinglyLinkedList chain is a Lean List, head first (push_front is cons).
  A chain position (node pointer) is the suffix of the chain starting at that
  node; the null pointer is the empty suffix.  Within one chain this is a
  faithful rendering of node identity, because distinct proper suffixes of a
  list have distinct lengths.
- The bucket Vector of the map is a Lean List of chains.
- size_t arithmetic is Nat, with an explicit mod 2 ^ 64 where the C++ code can
  wrap (Vector::at).
- float values (load factors) are modelled as exact rationals.
- An operation that dereferences a null or past-the-end pointer is modelled as
  returning none (a fault), so the value-level behaviour stays total.
-/

namespace Containers

/-! ## ForwardList (src/ForwardList.h) -/

/-- Inner loop of ForwardList::remove (ForwardList.h:251-257) acting on the part
of the chain after the current node: when the next node matches, erase_after it
and re-examine from the same node, otherwise advance.  Recursion on the suffix
after the current node renders exactly that loop. -/
def removeLoop {α : Type} [DecidableEq α] (val : α) : List α → List α
  | [] => []
  | y :: ys => if y = val then removeLoop val ys else y :: removeLoop val ys

/-- ForwardList::remove (ForwardList.h:248-258).  The scan starts at
itr = cbegin() and only ever reads itr.current->next, so on an empty list the
very first access dereferences a null pointer (modelled as none), and the data
held by the head node itself is never compared against val. -/
def removeModel {α : Type} [DecidableEq α] (val : α) : List α → Option (List α)
  | [] => none
  | x :: xs => some (x :: removeLoop val xs)

/-! ## Vector (src/Vector.h) -/

/-- Vector::at (Vector.h:210-216).  The bounds check is
index > currentSize - 1 computed in size_t arithmetic, so for size 0 the
right-hand side wraps to 2 ^ 64 - 1 and the check never fires; the subsequent
unchecked read of the buffer is modelled by the inner Option (none = the read
is past the live elements, for an empty Vector a null-buffer dereference). -/
def atModel {α : Type} (v : List α) (i : ℕ) : Except Unit (Option α) :=
  if i > (v.length + 2 ^ 64 - 1) % 2 ^ 64 then Except.error () else Except.ok v[i]?

/-- Observable state of a Vector for operator== (Vector.h:33-35, 86-89):
data is the identity of the owned heap buffer (none = null pointer), size the
element count.  Distinct live allocations have distinct identities. -/
structure VecBuf where
  data : Option ℕ
  size : ℕ
deriving DecidableEq

/-- Vector::operator== (Vector.h:86-87): raw comparison of the two buffer
pointers, never of the element sequences. -/
def veq (v w : VecBuf) : Bool := v.data == w.data

/-- Vector copy constructor (Vector.h:150-160): capacity becomes the source
size; a zero-capacity copy gets the null buffer, otherwise a fresh allocation
(fresh is the identity of the new buffer, distinct from every live one). -/
def copyCtor (v : VecBuf) (fresh : ℕ) : VecBuf :=
  { data := if v.size = 0 then none else some fresh, size := v.size }

/-! ## nextPrime (HashMap.h:393-408) -/

/-- The faithful trial division loop of UnorderedMap::nextPrime
(HashMap.h:399-405).  The loop counter i is a 32-bit unsigned compared against
the size_t value num / 2, so the counter values actually tested are
2 .. min(num / 2, 2 ^ 32 - 1).  If one of them divides num the loop breaks
(some true); otherwise, when num / 2 < 2 ^ 32 the loop exits normally and the
candidate is accepted (some false); when num / 2 >= 2 ^ 32 the counter wraps
past UINT_MAX to 0 and num % 0 divides by zero (none = fault).  Any composite
num below 2 ^ 64 has a prime factor below 2 ^ 32, so the fault is reached
exactly when a candidate at least 2 ^ 33 must be accepted. -/
def trialCompositeU (num : ℕ) : Option Bool :=
  if (List.range' 2 (min (num / 2) (2 ^ 32 - 1) - 1)).any (fun i => num % i == 0) then
    some true
  else if num / 2 < 2 ^ 32 then some false
  else none

/-- The increment-and-retest loop of nextPrime (HashMap.h:396-406) over the
faithful trial division, with explicit fuel standing for the unbounded while
loop and the division-by-zero fault propagated; enough fuel always exists
because there is a prime between num and 2 * num. -/
def nextPrimeFromU : ℕ → ℕ → Option ℕ
  | 0, _ => none
  | fuel + 1, num =>
    match trialCompositeU num with
    | some true => nextPrimeFromU fuel (num + 1)
    | some false => some num
    | none => none

/-- UnorderedMap::nextPrime (HashMap.h:393-408), faithful model: inputs at
most 1 return 2, otherwise candidates are tested by trialCompositeU and
incremented until one is accepted or the 32-bit counter wrap faults (none).
The fault occurs exactly when the search must accept a prime of at least
2 ^ 33. -/
def nextPrimeU (num : ℕ) : Option ℕ :=
  if num ≤ 1 then some 2 else nextPrimeFromU (num + 2) num

/-- The in-range reading of the trial division loop (HashMap.h:399-405), with
the loop counter taken as unbounded: some divisor i with 2 <= i <= num / 2
divides num.  It agrees with the faithful trialCompositeU on every candidate
below 2 ^ 33 (trialCompositeU_eq_of_small); the map model uses it for bucket
counts, which stay far below that bound in every claim relying on it. -/
def trialComposite (num : ℕ) : Bool :=
  (List.range' 2 (num / 2 - 1)).any (fun i => num % i == 0)

/-- The increment-and-retest loop of nextPrime over the in-range trial
division, with explicit fuel standing for the unbounded while loop. -/
def nextPrimeFrom : ℕ → ℕ → ℕ
  | 0, num => num
  | fuel + 1, num => if trialComposite num then nextPrimeFrom fuel (num + 1) else num

/-- In-range reading of UnorderedMap::nextPrime (HashMap.h:393-408), used for
the bucket counts of the map model: inputs at most 1 return 2, otherwise
candidates are tested by trial division up to half the candidate and
incremented until one passes.  nextPrimeU is the faithful model;
nextPrimeU_eq_of_small proves the two agree for inputs up to 2 ^ 32, and
nextPrimeU_none_of_large that the source faults above 2 ^ 33. -/
def nextPrime (num : ℕ) : ℕ :=
  if num ≤ 1 then 2 else nextPrimeFrom (num + 2) num

/-! ## UnorderedMap (src/HashMap.h) -/

/-- UnorderedMap state (HashMap.h:74-84): the bucket vector A (each bucket a
chain of key/value pairs, head first), the hash object h, currentSize, and
_max_load_factor (a float, modelled as an exact rational). -/
structure UMap (K V : Type) where
  A : List (List (K × V))
  h : K → ℕ
  size : ℕ
  mlf : ℚ

/-- bucket_count() (HashMap.h:134): the length of the bucket vector. -/
def bucketCount {K V : Type} (m : UMap K V) : ℕ := m.A.length

/-- load_factor() (HashMap.h:138): currentSize / bucket_count as a rational. -/
def loadFactor {K V : Type} (m : UMap K V) : ℚ :=
  (m.size : ℚ) / (m.A.length : ℚ)

/-- Cons a pair onto bucket i of a bucket vector: the effect of
A[i].push_front(p) on the vector of chains. -/
def insertAt {α : Type} (t : List (List α)) (i : ℕ) (x : α) : List (List α) :=
  t.set i (x :: t.getD i [])

/-- The redistribution loops of UnorderedMap::rehash (HashMap.h:380-388):
every pair of every old bucket is pushed to the front of bucket
h(key) % b of a fresh vector of b empty chains, old buckets in index order,
each chain from head to tail. -/
def moveAll {K V : Type} (hs : K → ℕ) (b : ℕ) (A : List (List (K × V))) :
    List (List (K × V)) :=
  A.foldl (fun t chain => chain.foldl (fun t2 p => insertAt t2 (hs p.1 % b) p) t)
    (List.replicate b [])

/-- The size-adjustment prologue of UnorderedMap::rehash (HashMap.h:376-378):
n == 0 is coerced to 1, then while n < currentSize / max_load_factor(), n is
replaced by (size_t)(currentSize / max_load_factor() * 2).  The loop body does
not depend on n and its result always satisfies the exit condition (at entry
n >= 1, so the load bound exceeds 1 and the floor of its double is at least
itself), hence the while loop runs at most once and is one conditional here. -/
def rehashN {K V : Type} (m : UMap K V) (n : ℕ) : ℕ :=
  let n1 := if n = 0 then 1 else n
  if (n1 : ℚ) < (m.size : ℚ) / m.mlf then Nat.floor ((m.size : ℚ) / m.mlf * 2) else n1

/-- UnorderedMap::rehash (HashMap.h:374-390): a fresh bucket vector of
nextPrime(adjusted n) chains receives every stored pair at its new index;
currentSize, the hash object and the load factor setting are untouched. -/
def rehash {K V : Type} (n : ℕ) (m : UMap K V) : UMap K V :=
  { A := moveAll m.h (nextPrime (rehashN m n)) m.A, h := m.h, size := m.size, mlf := m.mlf }

/-- UnorderedMap::rehash (HashMap.h:374-390) over the faithful nextPrimeU: the
adjusted candidate is handed to the next-prime search before any pair is
moved, so the division-by-zero fault of the 32-bit counter wrap (none)
propagates and no redistribution happens. -/
def rehashU {K V : Type} (n : ℕ) (m : UMap K V) : Option (UMap K V) :=
  (nextPrimeU (rehashN m n)).map (fun b =>
    { A := moveAll m.h b m.A, h := m.h, size := m.size, mlf := m.mlf })

/-- The capacity check shared by insert and operator[] (HashMap.h:273-274,
318-319): if load_factor() >= max_load_factor(), rehash(currentSize * 2). -/
def afterGrow {K V : Type} (m : UMap K V) : UMap K V :=
  if m.mlf ≤ (m.size : ℚ) / (m.A.length : ℚ) then rehash (m.size * 2) m else m

/-- UnorderedMap::insert (HashMap.h:270-290).  Besides the updated map it
returns the pair make_iterator(index, itr) as (bucket index, chain suffix at
itr) together with the inserted flag.  The C++ captures
itr = A[index].begin() before the branch; on the found path the while loop
advances itr to the matching node (dropWhile), on the push_front path itr still
holds the pre-insertion head, which is what is returned. -/
def insertModel {K V : Type} [DecidableEq K] (m : UMap K V) (p : K × V) :
    UMap K V × (ℕ × List (K × V)) × Bool :=
  let m1 := afterGrow m
  let i := m1.h p.1 % m1.A.length
  let chain := m1.A.getD i []
  if chain.any (fun q => q.1 == p.1) then
    (m1, (i, chain.dropWhile (fun q => !(q.1 == p.1))), false)
  else
    ({ m1 with A := m1.A.set i (p :: chain), size := m1.size + 1 }, (i, chain), true)

/-- UnorderedMap::operator[] (HashMap.h:316-343): after the same capacity
check, either the stored value for k is returned, or a pair (k, d) with the
default value d is pushed to the front of the bucket and d returned.  The
empty-bucket fast path and the failed-scan path of the C++ perform the same
push_front and are merged. -/
def subscriptModel {K V : Type} [DecidableEq K] (m : UMap K V) (k : K) (d : V) :
    UMap K V × V :=
  let m1 := afterGrow m
  let i := m1.h k % m1.A.length
  let chain := m1.A.getD i []
  match chain.find? (fun q => q.1 == k) with
  | some q => (m1, q.2)
  | none => ({ m1 with A := m1.A.set i ((k, d) :: chain), size := m1.size + 1 }, d)

/-- Abstract lookup: scan the target bucket for the first pair whose key
equals k and project its value.  This is the scan of the const find overload
(HashMap.h:360-371) and the membership test used by count/insert. -/
def mlookup {K V : Type} [DecidableEq K] (m : UMap K V) (k : K) : Option V :=
  ((m.A.getD (m.h k % m.A.length) []).find? (fun q => q.1 == k)).map (fun q => q.2)

/-- The do-while scan of the non-const UnorderedMap::find (HashMap.h:350-354)
on one chain, returning the suffix at which the loop leaves itr: none when the
first iteration dereferences the null position of an empty chain (a fault),
some (match :: rest) on a hit, and some [] when the chain is exhausted. -/
def findScanPos {K V : Type} [DecidableEq K] (k : K) :
    List (K × V) → Option (List (K × V))
  | [] => none
  | q :: rest =>
    if q.1 = k then some (q :: rest)
    else
      match rest with
      | [] => some []
      | _ :: _ => findScanPos k rest

/-- Non-const UnorderedMap::find (HashMap.h:346-357): the result of
make_iterator(index, itr) as (bucket index, chain suffix), or none when the
do-while faulted on an empty bucket. -/
def findIter {K V : Type} [DecidableEq K] (m : UMap K V) (k : K) :
    Option (ℕ × List (K × V)) :=
  (findScanPos k (m.A.getD (m.h k % m.A.length) [])).map
    (fun pos => (m.h k % m.A.length, pos))

/-- end() (HashMap.h:109): make_iterator(bucket_count()), i.e. the bucket
position one past the last bucket with the null chain position. -/
def endIter {K V : Type} (m : UMap K V) : ℕ × List (K × V) := (m.A.length, [])

/-- The constructor UnorderedMap(n) (HashMap.h:94-98): nextPrime(n) empty
buckets, currentSize 0, max load factor 1. -/
def mkMap {K V : Type} (n : ℕ) (hs : K → ℕ) : UMap K V :=
  { A := List.replicate (nextPrime n) [], h := hs, size := 0, mlf := 1 }

/-- A sequence of insertions via UnorderedMap::insert. -/
def insertAll {K V : Type} [DecidableEq K] (m : UMap K V) (ps : List (K × V)) :
    UMap K V :=
  ps.foldl (fun acc p => (insertModel acc p).1) m

/-- UnorderedMap::clear (HashMap.h:116) calls A.clear(), and Vector::clear
(Vector.h:77) just sets the vector size to 0: the bucket vector becomes empty
while currentSize is left untouched. -/
def clearOp {K V : Type} (m : UMap K V) : UMap K V := { m with A := [] }

/-! ## The composite map iterator (HashMap.h:106-111, 411-424) -/

/-- Scan forward from bucket index j (with the remaining buckets listed) for
the first non-empty bucket; if none is left the position becomes
(array length, null), which is the end iterator.  This is the skip loop inside
map_iterator::operator++ (HashMap.h:416-421). -/
def firstPos {P : Type} : List (List P) → ℕ → ℕ × List P
  | [], j => (j, [])
  | [] :: rest, j => firstPos rest (j + 1)
  | (p :: c) :: _, j => (j, p :: c)

/-- The canonical iteration loop: while it != end() { visit *it; ++it }.
Each step visits the pair under the position (dereferencing a null chain
position, as begin() hands out for an empty bucket 0, is a fault: none) and
advances with map_iterator::operator++: step within the chain, else skip to
the next non-empty bucket.  fuel bounds the number of loop iterations. -/
def travGo {P : Type} (A : List (List P)) : ℕ → ℕ × List P → Option (List P)
  | 0, _ => none
  | _ + 1, (i, []) => if i = A.length then some [] else none
  | fuel + 1, (i, p :: rest) =>
    (travGo A fuel
        (match rest with
          | [] => firstPos (A.drop (i + 1)) (i + 1)
          | _ :: _ => (i, rest))).map (fun l => p :: l)

/-- Full traversal of a map from begin() = make_iterator(0, A[0].begin())
(HashMap.h:106) to end(), with fuel one more than the number of stored pairs
(one loop iteration per visited pair, plus the final end() test). -/
def mapTraverse {K V : Type} (m : UMap K V) : Option (List (K × V)) :=
  travGo m.A (m.A.flatten.length + 1) (0, m.A.getD 0 [])

/-- A reachable map state used as a test input: the two buckets of the default
constructor, no pairs, and max_load_factor set to 0.2 through the setter
(HashMap.h:140); 0.2f is exactly representable, so the rational rendering
matches the float one. -/
def mLowMap : UMap ℕ ℕ := { A := [[], []], h := fun x => x, size := 0, mlf := 1 / 5 }

/-- A reachable map state used as a test input: identity hash, one pair with
key 1 stored in bucket 1, bucket 0 empty. -/
def emptyBucketZeroMap : UMap ℕ ℕ :=
  { A := [[], [(1, 5)]], h := fun x => x, size := 1, mlf := 1 }

/-- A reachable map state used as a test input for iteration: three buckets
with the middle one empty and pairs in buckets 0 and 2. -/
def travWitnessMap : UMap ℕ ℕ :=
  { A := [[(0, 1)], [], [(2, 3)]], h := fun x => x, size := 2, mlf := 1 }

/-! ## Well-formedness of a map state -/

/-- The structural invariants of a map state: at least one bucket, every pair
lives in the bucket its key hashes to, keys are globally unique, currentSize
counts the stored pairs, and the load factor setting is positive. -/
def WF {K V : Type} (m : UMap K V) : Prop :=
  1 ≤ m.A.length ∧
  (∀ i, i < m.A.length → ∀ q ∈ m.A.getD i [], m.h q.1 % m.A.length = i) ∧
  (m.A.flatten.map Prod.fst).Nodup ∧
  m.size = m.A.flatten.length ∧
  0 < m.mlf

/-! ## Lemmas: nextPrime -/

lemma trialComposite_true_of_not_prime {num : ℕ} (h2 : 2 ≤ num)
    (hnp : ¬ num.Prime) : trialComposite num = true := by
  have hpos : 0 < num := by omega
  have hne1 : num ≠ 1 := by omega
  have hmf2 : 2 ≤ num.minFac := (Nat.minFac_prime hne1).two_le
  have hmfdvd : num.minFac ∣ num := Nat.minFac_dvd num
  have hmfle : num.minFac ≤ num / 2 := by
    have ha : num.minFac ≤ num / num.minFac := Nat.minFac_le_div hpos hnp
    have hb : num / num.minFac ≤ num / 2 := Nat.div_le_div_left hmf2 (by omega)
    omega
  unfold trialComposite
  rw [List.any_eq_true]
  refine ⟨num.minFac, ?_, ?_⟩
  · rw [List.mem_range'_1]
    omega
  · have hz : num % num.minFac = 0 := Nat.mod_eq_zero_of_dvd hmfdvd
    simp [hz]

lemma prime_of_trialComposite_false {num : ℕ} (h2 : 2 ≤ num)
    (h : trialComposite num = false) : num.Prime := by
  by_contra hnp
  rw [trialComposite_true_of_not_prime h2 hnp] at h
  exact Bool.noConfusion h

lemma trialComposite_false_of_prime {num : ℕ} (hp : num.Prime) :
    trialComposite num = false := by
  have h2 : 2 ≤ num := hp.two_le
  unfold trialComposite
  rw [List.any_eq_false]
  intro i hi
  rw [List.mem_range'_1] at hi
  have hile : i ≤ num / 2 := by omega
  have hilt : i < num := by
    have : num / 2 < num := Nat.div_lt_self (by omega) (by omega)
    omega
  intro hmod
  have hdvd : i ∣ num := Nat.dvd_of_mod_eq_zero (by simpa using hmod)
  rcases hp.eq_one_or_self_of_dvd i hdvd with h1 | hn
  · omega
  · omega

lemma nextPrimeFrom_correct :
    ∀ (fuel num p : ℕ), 2 ≤ num → p.Prime → num ≤ p → p ≤ num + fuel →
      (nextPrimeFrom fuel num).Prime ∧ num ≤ nextPrimeFrom fuel num ∧
      ∀ q, q.Prime → num ≤ q → nextPrimeFrom fuel num ≤ q := by
  intro fuel
  induction fuel with
  | zero =>
    intro num p h2 hp hnp hpn
    have heq : num = p := by omega
    subst heq
    exact ⟨hp, le_refl _, fun q _ hq => hq⟩
  | succ fuel ih =>
    intro num p h2 hp hnp hpn
    by_cases htc : trialComposite num = true
    · have hnp2 : ¬ num.Prime := by
        intro hnum
        rw [trialComposite_false_of_prime hnum] at htc
        exact Bool.false_ne_true htc
      have hne : p ≠ num := fun he => hnp2 (he ▸ hp)
      have hrec := ih (num + 1) p (by omega) hp (by omega) (by omega)
      have hres : nextPrimeFrom (fuel + 1) num = nextPrimeFrom fuel (num + 1) := by
        show (if trialComposite num = true then nextPrimeFrom fuel (num + 1) else num) =
          nextPrimeFrom fuel (num + 1)
        rw [if_pos htc]
      rw [hres]
      refine ⟨hrec.1, by omega, fun q hq hnq => ?_⟩
      have hqne : q ≠ num := fun he => hnp2 (he ▸ hq)
      exact hrec.2.2 q hq (by omega)
    · have htc' : trialComposite num = false := by
        revert htc
        cases trialComposite num <;> simp
      have hres : nextPrimeFrom (fuel + 1) num = num := by
        show (if trialComposite num = true then nextPrimeFrom fuel (num + 1) else num) = num
        rw [if_neg htc]
      rw [hres]
      exact ⟨prime_of_trialComposite_false h2 htc', le_refl _, fun q _ hq => hq⟩

lemma nextPrime_correct (n : ℕ) :
    (nextPrime n).Prime ∧ n ≤ nextPrime n ∧
      ∀ q, q.Prime → n ≤ q → nextPrime n ≤ q := by
  unfold nextPrime
  by_cases hn : n ≤ 1
  · rw [if_pos hn]
    exact ⟨Nat.prime_two, by omega, fun q hq _ => hq.two_le⟩
  · rw [if_neg hn]
    obtain ⟨p, hp, hlt, hle⟩ := Nat.bertrand n (by omega)
    exact nextPrimeFrom_correct (n + 2) n p (by omega) hp (le_of_lt hlt) (by omega)

lemma nextPrime_two_le (n : ℕ) : 2 ≤ nextPrime n :=
  (nextPrime_correct n).1.two_le

lemma nextPrime_ge (n : ℕ) : n ≤ nextPrime n :=
  (nextPrime_correct n).2.1

/-! ## Lemmas: the faithful next-prime search against the in-range one -/

lemma trialCompositeU_eq_of_small (num : ℕ) (h : num < 2 ^ 33) :
    trialCompositeU num = some (trialComposite num) := by
  have hd : num / 2 < 2 ^ 32 := by omega
  have hmin : min (num / 2) (2 ^ 32 - 1) = num / 2 := by omega
  unfold trialCompositeU trialComposite
  rw [hmin]
  cases hany : (List.range' 2 (num / 2 - 1)).any (fun i => num % i == 0) with
  | true => rfl
  | false => rw [if_neg (by simp), if_pos hd]

lemma trialCompositeU_none_of_prime_large (p : ℕ) (hp : p.Prime)
    (hge : 2 ^ 33 ≤ p) : trialCompositeU p = none := by
  have hany : (List.range' 2 (min (p / 2) (2 ^ 32 - 1) - 1)).any
      (fun i => p % i == 0) = false := by
    rw [List.any_eq_false]
    intro i hi
    rw [List.mem_range'_1] at hi
    have hile : i ≤ 2 ^ 32 - 1 := by omega
    have hilt : i < p := by omega
    intro hmod
    have hdvd : i ∣ p := Nat.dvd_of_mod_eq_zero (by simpa using hmod)
    rcases hp.eq_one_or_self_of_dvd i hdvd with h1 | h2 <;> omega
  unfold trialCompositeU
  rw [if_neg (by rw [hany]; exact Bool.noConfusion), if_neg (by omega)]

lemma trialCompositeU_ne_some_false_of_large (num : ℕ) (hge : 2 ^ 33 ≤ num) :
    trialCompositeU num ≠ some false := by
  unfold trialCompositeU
  split
  · exact fun h => Bool.noConfusion (Option.some.inj h)
  · rw [if_neg (by omega : ¬ (num / 2 < 2 ^ 32))]
    exact fun h => Option.noConfusion h

lemma nextPrimeFromU_succ (fuel num : ℕ) :
    nextPrimeFromU (fuel + 1) num =
      (match trialCompositeU num with
      | some true => nextPrimeFromU fuel (num + 1)
      | some false => some num
      | none => none) := rfl

lemma nextPrimeFromU_none :
    ∀ (fuel num p : ℕ), 2 ^ 33 ≤ num → p.Prime → num ≤ p → p ≤ num + fuel →
      nextPrimeFromU fuel num = none := by
  intro fuel
  induction fuel with
  | zero => intro num p _ _ _ _; rfl
  | succ fuel ih =>
    intro num p hnum hp hnp hpn
    rw [nextPrimeFromU_succ]
    cases htc : trialCompositeU num with
    | none => rfl
    | some b =>
      cases b with
      | false => exact absurd htc (trialCompositeU_ne_some_false_of_large num hnum)
      | true =>
        have hne : p ≠ num := by
          intro he
          subst he
          rw [trialCompositeU_none_of_prime_large p hp hnum] at htc
          exact Option.noConfusion htc
        exact ih (num + 1) p (by omega) hp (by omega) (by omega)

lemma nextPrimeFromU_eq :
    ∀ (fuel num p : ℕ), 2 ≤ num → p.Prime → num ≤ p → p < num + fuel →
      p < 2 ^ 33 → nextPrimeFromU fuel num = some (nextPrimeFrom fuel num) := by
  intro fuel
  induction fuel with
  | zero => intro num p _ _ hnp hlt _; exact absurd hlt (by omega)
  | succ fuel ih =>
    intro num p h2 hp hnp hlt hp33
    have hsmall : num < 2 ^ 33 := by omega
    have hagree := trialCompositeU_eq_of_small num hsmall
    rw [nextPrimeFromU_succ]
    cases htc : trialComposite num with
    | true =>
      have htcU : trialCompositeU num = some true := by rw [hagree, htc]
      have hnprime : ¬ num.Prime := by
        intro hpr
        rw [trialComposite_false_of_prime hpr] at htc
        exact Bool.noConfusion htc
      have hne : p ≠ num := fun he => hnprime (he ▸ hp)
      have hideal : nextPrimeFrom (fuel + 1) num = nextPrimeFrom fuel (num + 1) := by
        show (if trialComposite num = true then nextPrimeFrom fuel (num + 1) else num) =
          nextPrimeFrom fuel (num + 1)
        rw [if_pos htc]
      rw [htcU, hideal]
      exact ih (num + 1) p (by omega) hp (by omega) (by omega) hp33
    | false =>
      have htcU : trialCompositeU num = some false := by rw [hagree, htc]
      have hideal : nextPrimeFrom (fuel + 1) num = num := by
        show (if trialComposite num = true then nextPrimeFrom fuel (num + 1) else num) = num
        rw [if_neg (by rw [htc]; exact Bool.noConfusion)]
      rw [htcU, hideal]

lemma nextPrimeU_none_of_large (num : ℕ) (h : 2 ^ 33 ≤ num) :
    nextPrimeU num = none := by
  unfold nextPrimeU
  rw [if_neg (by omega)]
  obtain ⟨p, hp, hlt, hle⟩ := Nat.bertrand num (by omega)
  exact nextPrimeFromU_none (num + 2) num p h hp (le_of_lt hlt) (by omega)

lemma nextPrimeU_eq_of_small (num : ℕ) (h : num ≤ 2 ^ 32) :
    nextPrimeU num = some (nextPrime num) := by
  by_cases h1 : num ≤ 1
  · unfold nextPrimeU nextPrime
    rw [if_pos h1, if_pos h1]
  · unfold nextPrimeU nextPrime
    rw [if_neg h1, if_neg h1]
    obtain ⟨p, hp, hlt, hle⟩ := Nat.bertrand num (by omega)
    have hne : p ≠ 2 ^ 33 := by
      intro he
      have hdvd : (2 : ℕ) ∣ 2 ^ 33 := ⟨2 ^ 32, by norm_num⟩
      rcases (he ▸ hp : Nat.Prime (2 ^ 33)).eq_one_or_self_of_dvd 2 hdvd with hh | hh <;>
        norm_num at hh
    have hp33 : p < 2 ^ 33 := by omega
    exact nextPrimeFromU_eq (num + 2) num p (by omega) hp (le_of_lt hlt) (by omega) hp33

/-! ## Claim theorems: C8, C7, C9, C6 -/

/-- Claim C8 (counterexample): at input 2 ^ 40 (reachable as
UnorderedMap<int,int> m(1ull<<40)) the faithful search never returns the
smallest prime at or above the input: every candidate up to the first such
prime is rejected by a divisor below 2 ^ 32, and at that prime the 32-bit
counter wraps to 0 and num % 0 divides by zero (none), so the program crashes
instead. -/
theorem nextPrime_faults_on_large_input : nextPrimeU (2 ^ 40) = none :=
  nextPrimeU_none_of_large (2 ^ 40) (by norm_num)

/-- Claim C8 (amended): for every input n up to 2 ^ 32, the faithful search
terminates without the counter wrap and nextPrime(n) returns the smallest
prime greater than or equal to n (it is prime, at least n, and below every
prime that is at least n); the representative inputs map 0 -> 2, 1 -> 2,
2 -> 2, 3 -> 3, 4 -> 5, 10 -> 11, 25 -> 29.  For inputs whose next prime
reaches 2 ^ 33 the 32-bit loop counter wraps and the program faults (the
counterexample). -/
theorem nextPrime_spec (n : ℕ) (hn : n ≤ 2 ^ 32) :
    nextPrimeU n = some (nextPrime n) ∧
    (nextPrime n).Prime ∧ n ≤ nextPrime n ∧
    (∀ q, q.Prime → n ≤ q → nextPrime n ≤ q) ∧
    nextPrimeU 0 = some 2 ∧ nextPrimeU 1 = some 2 ∧ nextPrimeU 2 = some 2 ∧
    nextPrimeU 3 = some 3 ∧ nextPrimeU 4 = some 5 ∧ nextPrimeU 10 = some 11 ∧
    nextPrimeU 25 = some 29 :=
  ⟨nextPrimeU_eq_of_small n hn, (nextPrime_correct n).1, (nextPrime_correct n).2.1,
   (nextPrime_correct n).2.2, rfl, rfl, rfl, rfl, rfl, rfl, rfl⟩

/-- Witness for nextPrime_spec at a concrete input: 24 is within the bound,
the faithful search agrees with the in-range one there, and 29 is a prime
above 24, so nextPrime 24 is at most 29. -/
theorem nextPrime_spec_witness :
    nextPrimeU 24 = some (nextPrime 24) ∧ nextPrime 24 ≤ 29 :=
  ⟨(nextPrime_spec 24 (by norm_num)).1,
   (nextPrime_spec 24 (by norm_num)).2.2.2.1 29 (by norm_num) (by norm_num)⟩

/-- Claim C7 (code bug): on an empty Vector the checked accessor at never
raises OutOfRange, for any index: the guard index > currentSize - 1 wraps to
index > 2 ^ 64 - 1 in size_t arithmetic, which is always false, and the
subsequent unchecked read dereferences the null buffer (the inner none). -/
theorem at_empty_never_raises :
    atModel ([] : List ℕ) 0 = Except.ok none ∧
    atModel ([] : List ℕ) 5 = Except.ok none := ⟨rfl, rfl⟩

/-- Claim C9 (code bug): remove(0) on the chain [0, 1] leaves the chain
unchanged because the data of the head node is never examined; remove on an
empty chain dereferences a null pointer (none); matches strictly after the
head, including adjacent duplicates, are unlinked as documented. -/
theorem remove_misses_head :
    removeModel (0 : ℕ) [0, 1] = some [0, 1] ∧
    removeModel (0 : ℕ) ([] : List ℕ) = none ∧
    removeModel (1 : ℕ) [0, 1, 1, 2] = some [0, 2] := by
  refine ⟨rfl, rfl, ?_⟩
  decide

/-- Claim C6 (code bug): a freshly constructed map has 2 buckets (prime), but
clear() empties the bucket vector itself, leaving bucket_count() = 0, which is
neither at least 1 nor prime (and makes the next hash % bucket_count() a
division by zero). -/
theorem clear_zeroes_bucket_count :
    bucketCount (mkMap 1 (fun x => x) : UMap ℕ ℕ) = 2 ∧
    bucketCount (clearOp (mkMap 1 (fun x => x) : UMap ℕ ℕ)) = 0 ∧
    ¬ Nat.Prime (bucketCount (clearOp (mkMap 1 (fun x => x) : UMap ℕ ℕ))) := by
  refine ⟨rfl, rfl, ?_⟩
  have h : bucketCount (clearOp (mkMap 1 (fun x => x) : UMap ℕ ℕ)) = 0 := rfl
  rw [h]
  exact Nat.not_prime_zero

/-- Claim C2 (code bug): find on the empty fresh map dereferences the null
head of the empty target bucket (none = fault) instead of returning end();
moreover on a non-empty bucket with no match the do-while returns
make_iterator(index, null), whose bucket field differs from the one of end(),
so it does not even compare equal to end(). -/
theorem find_faults_on_empty_bucket :
    findIter (mkMap 1 (fun x => x) : UMap ℕ ℕ) 0 = none ∧
    findIter ({ A := [[(1, 7)], []], h := fun x => x, size := 1, mlf := 1 } : UMap ℕ ℕ) 2
      = some (0, []) ∧
    (0, ([] : List (ℕ × ℕ))) ≠
      endIter ({ A := [[(1, 7)], []], h := fun x => x, size := 1, mlf := 1 } : UMap ℕ ℕ) := by
  refine ⟨rfl, rfl, ?_⟩
  intro hcontra
  have : (0 : ℕ) = 2 := congrArg Prod.fst hcontra
  omega

/-! ## Claim C10: Vector equality is buffer identity -/

/-- Claim C10 (counterexample): copying a default-constructed Vector yields a
null buffer again (capacity 0 allocates nothing), so the copy compares EQUAL
to its source, refuting that a copy-constructed Vector always compares unequal
to its source. -/
theorem copy_of_default_compares_equal :
    veq (copyCtor { data := none, size := 0 } 7) { data := none, size := 0 } = true := rfl

/-- Claim C10 (amended): operator== holds exactly when the two buffer pointers
coincide; a copy of a NON-empty Vector owns a fresh buffer and compares
unequal to its source; a copy of an empty, null-buffer Vector gets the null
buffer and compares equal to it, as do two default-constructed Vectors. -/
theorem veq_spec (v w : VecBuf) (fresh : ℕ) (hs : v.size ≠ 0)
    (hf : some fresh ≠ v.data) :
    (veq v w = true ↔ v.data = w.data) ∧
    veq (copyCtor v fresh) v = false ∧
    veq { data := none, size := 0 } { data := none, size := 0 } = true ∧
    veq (copyCtor { data := none, size := 0 } 3) { data := none, size := 0 } = true := by
  refine ⟨beq_iff_eq, ?_, rfl, rfl⟩
  have hd : (copyCtor v fresh).data = some fresh := by
    unfold copyCtor
    simp [hs]
  unfold veq
  rw [hd]
  exact beq_eq_false_iff_ne.mpr hf

/-- Witness for veq_spec: a two-element Vector with buffer identity 0, copied
into the fresh buffer 1, compares unequal to its source. -/
theorem veq_spec_witness :
    veq (copyCtor { data := some 0, size := 2 } 1) { data := some 0, size := 2 } = false :=
  (veq_spec { data := some 0, size := 2 } { data := none, size := 0 } 1
    (by decide) (by decide)).2.1

/-! ## Lemmas: bucket vector surgery -/

lemma insertAt_length {α : Type} (t : List (List α)) (i : ℕ) (x : α) :
    (insertAt t i x).length = t.length :=
  List.length_set t i _

lemma insertAt_cons_zero {α : Type} (c : List α) (cs : List (List α)) (x : α) :
    insertAt (c :: cs) 0 x = (x :: c) :: cs := rfl

lemma insertAt_cons_succ {α : Type} (c : List α) (cs : List (List α)) (i : ℕ) (x : α) :
    insertAt (c :: cs) (i + 1) x = c :: insertAt cs i x := rfl

lemma insertAt_flatten_perm {α : Type} (t : List (List α)) (i : ℕ) (x : α)
    (h : i < t.length) : (insertAt t i x).flatten.Perm (x :: t.flatten) := by
  induction t generalizing i with
  | nil => simp at h
  | cons c cs ih =>
    cases i with
    | zero =>
      rw [insertAt_cons_zero]
      simp only [List.flatten_cons, List.cons_append]
      exact List.Perm.refl _
    | succ i =>
      rw [insertAt_cons_succ]
      simp only [List.flatten_cons]
      have hi : i < cs.length := by
        simp only [List.length_cons] at h
        omega
      exact (List.Perm.append_left c (ih i hi)).trans List.perm_middle

lemma getD_eq_getElem? {α : Type} (t : List (List α)) (i : ℕ) :
    t.getD i [] = (t[i]?).getD [] :=
  List.getD_eq_getElem?_getD t i []

lemma insertAt_getD_self {α : Type} (t : List (List α)) (i : ℕ) (x : α)
    (h : i < t.length) : (insertAt t i x).getD i [] = x :: t.getD i [] := by
  rw [getD_eq_getElem?, insertAt, List.getElem?_set_self h]
  rfl

lemma insertAt_getD_ne {α : Type} (t : List (List α)) (i j : ℕ) (x : α)
    (hne : i ≠ j) : (insertAt t i x).getD j [] = t.getD j [] := by
  rw [getD_eq_getElem?, insertAt, List.getElem?_set_ne hne, ← getD_eq_getElem?]

lemma getD_replicate_nil {α : Type} (n i : ℕ) :
    (List.replicate n ([] : List α)).getD i [] = [] := by
  rw [getD_eq_getElem?, List.getElem?_replicate]
  by_cases h : i < n
  · rw [if_pos h]
    rfl
  · rw [if_neg h]
    rfl

lemma eq_snd_of_keys_nodup {K V : Type} :
    ∀ (l : List (K × V)) (k : K) (v w : V),
      ((l.map Prod.fst).Nodup) → (k, v) ∈ l → (k, w) ∈ l → v = w := by
  intro l
  induction l with
  | nil => intro k v w _ hv _; simp at hv
  | cons a as ih =>
    intro k v w hnd hv hw
    rw [List.map_cons, List.nodup_cons] at hnd
    rcases List.mem_cons.mp hv with hv1 | hv2 <;>
      rcases List.mem_cons.mp hw with hw1 | hw2
    · rw [← hv1] at hw1
      exact (Prod.mk.injEq _ _ _ _ ▸ hw1).2.symm
    · exfalso
      apply hnd.1
      rw [← hv1]
      exact List.mem_map.mpr ⟨(k, w), hw2, rfl⟩
    · exfalso
      apply hnd.1
      rw [← hw1]
      exact List.mem_map.mpr ⟨(k, v), hv2, rfl⟩
    · exact ih k v w hnd.2 hv2 hw2

/-! ## Lemmas: the redistribution folds of rehash -/

lemma chainFold_length {K V : Type} (hs : K → ℕ) (b : ℕ) :
    ∀ (chain : List (K × V)) (t : List (List (K × V))),
      (chain.foldl (fun t2 p => insertAt t2 (hs p.1 % b) p) t).length = t.length := by
  intro chain
  induction chain with
  | nil => intro t; rfl
  | cons p ps ih =>
    intro t
    rw [List.foldl_cons, ih, insertAt_length]

lemma chainFold_flatten {K V : Type} (hs : K → ℕ) (b : ℕ) (hb : 0 < b) :
    ∀ (chain : List (K × V)) (t : List (List (K × V))), t.length = b →
      ((chain.foldl (fun t2 p => insertAt t2 (hs p.1 % b) p) t).flatten).Perm
        (chain ++ t.flatten) := by
  intro chain
  induction chain with
  | nil => intro t _; exact List.Perm.refl _
  | cons p ps ih =>
    intro t ht
    rw [List.foldl_cons]
    have hidx : hs p.1 % b < t.length := by
      rw [ht]
      exact Nat.mod_lt _ hb
    have h1 := ih (insertAt t (hs p.1 % b) p) (by rw [insertAt_length, ht])
    have h2 : ((insertAt t (hs p.1 % b) p).flatten).Perm (p :: t.flatten) :=
      insertAt_flatten_perm t _ p hidx
    exact h1.trans ((List.Perm.append_left ps h2).trans List.perm_middle)

lemma chainFold_placement {K V : Type} (hs : K → ℕ) (b : ℕ) (hb : 0 < b) :
    ∀ (chain : List (K × V)) (t : List (List (K × V))), t.length = b →
      (∀ j q, q ∈ t.getD j [] → hs q.1 % b = j) →
      ∀ j q, q ∈ (chain.foldl (fun t2 p => insertAt t2 (hs p.1 % b) p) t).getD j [] →
        hs q.1 % b = j := by
  intro chain
  induction chain with
  | nil => intro t _ hinv; exact hinv
  | cons p ps ih =>
    intro t ht hinv
    rw [List.foldl_cons]
    apply ih (insertAt t (hs p.1 % b) p) (by rw [insertAt_length, ht])
    intro j q hq
    by_cases hj : hs p.1 % b = j
    · subst hj
      rw [insertAt_getD_self t _ p (by rw [ht]; exact Nat.mod_lt _ hb)] at hq
      rcases List.mem_cons.mp hq with hq1 | hq2
      · rw [hq1]
      · exact hinv _ q hq2
    · rw [insertAt_getD_ne t _ j p hj] at hq
      exact hinv j q hq

lemma outerFold_length {K V : Type} (hs : K → ℕ) (b : ℕ) :
    ∀ (A : List (List (K × V))) (t : List (List (K × V))),
      (A.foldl (fun t chain => chain.foldl (fun t2 p => insertAt t2 (hs p.1 % b) p) t)
        t).length = t.length := by
  intro A
  induction A with
  | nil => intro t; rfl
  | cons c As ih =>
    intro t
    rw [List.foldl_cons, ih, chainFold_length]

lemma outerFold_flatten {K V : Type} (hs : K → ℕ) (b : ℕ) (hb : 0 < b) :
    ∀ (A : List (List (K × V))) (t : List (List (K × V))), t.length = b →
      ((A.foldl (fun t chain => chain.foldl (fun t2 p => insertAt t2 (hs p.1 % b) p) t)
        t).flatten).Perm (A.flatten ++ t.flatten) := by
  intro A
  induction A with
  | nil => intro t _; exact List.Perm.refl _
  | cons c As ih =>
    intro t ht
    rw [List.foldl_cons]
    have h1 := ih (c.foldl (fun t2 p => insertAt t2 (hs p.1 % b) p) t)
      (by rw [chainFold_length, ht])
    have h2 := chainFold_flatten hs b hb c t ht
    refine h1.trans ((List.Perm.append_left As.flatten h2).trans ?_)
    rw [List.flatten_cons, ← List.append_assoc]
    exact List.Perm.append_right _ List.perm_append_comm

lemma outerFold_placement {K V : Type} (hs : K → ℕ) (b : ℕ) (hb : 0 < b) :
    ∀ (A : List (List (K × V))) (t : List (List (K × V))), t.length = b →
      (∀ j q, q ∈ t.getD j [] → hs q.1 % b = j) →
      ∀ j q,
        q ∈ (A.foldl (fun t chain => chain.foldl (fun t2 p => insertAt t2 (hs p.1 % b) p) t)
          t).getD j [] → hs q.1 % b = j := by
  intro A
  induction A with
  | nil => intro t _ hinv; exact hinv
  | cons c As ih =>
    intro t ht hinv
    rw [List.foldl_cons]
    exact ih _ (by rw [chainFold_length, ht]) (chainFold_placement hs b hb c t ht hinv)

lemma flatten_replicate_nil {α : Type} (b : ℕ) :
    (List.replicate b ([] : List α)).flatten = [] := by
  rw [List.flatten_eq_nil_iff]
  intro l hl
  exact (List.mem_replicate.mp hl).2

lemma moveAll_length {K V : Type} (hs : K → ℕ) (b : ℕ) (A : List (List (K × V))) :
    (moveAll hs b A).length = b := by
  unfold moveAll
  rw [outerFold_length, List.length_replicate]

lemma moveAll_flatten_perm {K V : Type} (hs : K → ℕ) (b : ℕ) (hb : 0 < b)
    (A : List (List (K × V))) : ((moveAll hs b A).flatten).Perm A.flatten := by
  unfold moveAll
  have h := outerFold_flatten hs b hb A (List.replicate b []) (List.length_replicate ..)
  rwa [flatten_replicate_nil, List.append_nil] at h

lemma moveAll_placement {K V : Type} (hs : K → ℕ) (b : ℕ) (hb : 0 < b)
    (A : List (List (K × V))) :
    ∀ j q, q ∈ (moveAll hs b A).getD j [] → hs q.1 % b = j := by
  unfold moveAll
  apply outerFold_placement hs b hb A (List.replicate b []) (List.length_replicate ..)
  intro j q hq
  rw [getD_replicate_nil] at hq
  exact absurd hq (List.not_mem_nil q)

/-! ## Lemmas: rehash preserves the map contents -/

lemma rehashN_def {K V : Type} (m : UMap K V) (n : ℕ) :
    rehashN m n =
      (if (((if n = 0 then 1 else n) : ℕ) : ℚ) < (m.size : ℚ) / m.mlf then
        Nat.floor ((m.size : ℚ) / m.mlf * 2)
      else (if n = 0 then 1 else n)) := rfl

lemma rehash_h {K V : Type} (n : ℕ) (m : UMap K V) : (rehash n m).h = m.h := rfl

lemma rehash_size {K V : Type} (n : ℕ) (m : UMap K V) : (rehash n m).size = m.size := rfl

lemma rehash_mlf {K V : Type} (n : ℕ) (m : UMap K V) : (rehash n m).mlf = m.mlf := rfl

lemma rehash_length {K V : Type} (n : ℕ) (m : UMap K V) :
    (rehash n m).A.length = nextPrime (rehashN m n) :=
  moveAll_length m.h _ m.A

lemma rehash_bpos {K V : Type} (n : ℕ) (m : UMap K V) : 0 < (rehash n m).A.length := by
  rw [rehash_length]
  have := nextPrime_two_le (rehashN m n)
  omega

lemma rehash_flatten_perm {K V : Type} (n : ℕ) (m : UMap K V) :
    ((rehash n m).A.flatten).Perm m.A.flatten :=
  moveAll_flatten_perm m.h _ (by have := nextPrime_two_le (rehashN m n); omega) m.A

lemma rehash_placement {K V : Type} (n : ℕ) (m : UMap K V) :
    ∀ i q, q ∈ (rehash n m).A.getD i [] → m.h q.1 % (rehash n m).A.length = i := by
  intro i q hq
  rw [rehash_length]
  exact moveAll_placement m.h _ (by have := nextPrime_two_le (rehashN m n); omega) m.A i q hq

lemma rehash_WF {K V : Type} (n : ℕ) (m : UMap K V) (hwf : WF m) : WF (rehash n m) := by
  obtain ⟨hb, hplace, hnd, hsize, hmlf⟩ := hwf
  refine ⟨?_, ?_, ?_, ?_, hmlf⟩
  · have := rehash_bpos n m
    omega
  · intro i _ q hq
    rw [rehash_h]
    exact rehash_placement n m i q hq
  · exact ((rehash_flatten_perm n m).map Prod.fst).nodup_iff.mpr hnd
  · rw [rehash_size, (rehash_flatten_perm n m).length_eq, hsize]

/-! ## Lemmas: the abstract lookup against the flattened contents -/

lemma mlookup_eq_some_iff {K V : Type} [DecidableEq K] (m : UMap K V) (hwf : WF m)
    (k : K) (v : V) : mlookup m k = some v ↔ (k, v) ∈ m.A.flatten := by
  obtain ⟨hb, hplace, hnd, hsize, hmlf⟩ := hwf
  have hbpos : 0 < m.A.length := by omega
  have hi : m.h k % m.A.length < m.A.length := Nat.mod_lt _ hbpos
  have hchain : m.A.getD (m.h k % m.A.length) [] = m.A[m.h k % m.A.length] :=
    List.getD_eq_getElem m.A [] hi
  constructor
  · intro hl
    unfold mlookup at hl
    rw [Option.map_eq_some'] at hl
    obtain ⟨q, hfind, hq2⟩ := hl
    have hqk : q.1 = k := by simpa using List.find?_some hfind
    have hqmem : q ∈ m.A.getD (m.h k % m.A.length) [] := List.mem_of_find?_eq_some hfind
    have hqfl : q ∈ m.A.flatten := by
      rw [hchain] at hqmem
      exact List.mem_flatten.mpr ⟨_, List.getElem_mem hi, hqmem⟩
    have hq : q = (k, v) := by
      obtain ⟨a, b⟩ := q
      simp only at hqk hq2
      rw [hqk, hq2]
    rwa [hq] at hqfl
  · intro hmem
    obtain ⟨c, hcA, hkc⟩ := List.mem_flatten.mp hmem
    obtain ⟨j, hj, hcj⟩ := List.mem_iff_getElem.mp hcA
    have hjc : (k, v) ∈ m.A.getD j [] := by
      rw [List.getD_eq_getElem m.A [] hj, hcj]
      exact hkc
    have hjk : m.h k % m.A.length = j := hplace j hj (k, v) hjc
    have hkchain : (k, v) ∈ m.A.getD (m.h k % m.A.length) [] := by
      rw [hjk]
      exact hjc
    have hsome : ((m.A.getD (m.h k % m.A.length) []).find?
        (fun q => q.1 == k)).isSome := by
      rw [List.find?_isSome]
      exact ⟨(k, v), hkchain, by simp⟩
    obtain ⟨q, hfind⟩ := Option.isSome_iff_exists.mp hsome
    have hqk : q.1 = k := by simpa using List.find?_some hfind
    have hqmem := List.mem_of_find?_eq_some hfind
    have hqfl : q ∈ m.A.flatten := by
      rw [hchain] at hqmem
      exact List.mem_flatten.mpr ⟨_, List.getElem_mem hi, hqmem⟩
    have hv : v = q.2 := by
      apply eq_snd_of_keys_nodup m.A.flatten k v q.2 hnd hmem
      have hkq : (k, q.2) = q := by
        obtain ⟨a, b⟩ := q
        simp only at hqk
        rw [hqk]
      rw [hkq]
      exact hqfl
    unfold mlookup
    rw [hfind, hv]
    rfl

lemma mlookup_ext {K V : Type} [DecidableEq K] (m m2 : UMap K V) (hwf : WF m)
    (hwf2 : WF m2) (hperm : (m2.A.flatten).Perm m.A.flatten) (k : K) :
    mlookup m2 k = mlookup m k := by
  cases hl : mlookup m k with
  | some v =>
    rw [mlookup_eq_some_iff m2 hwf2]
    rw [mlookup_eq_some_iff m hwf] at hl
    exact hperm.mem_iff.mpr hl
  | none =>
    cases hl2 : mlookup m2 k with
    | none => rfl
    | some w =>
      rw [mlookup_eq_some_iff m2 hwf2] at hl2
      have : (k, w) ∈ m.A.flatten := hperm.mem_iff.mp hl2
      rw [← mlookup_eq_some_iff m hwf] at this
      rw [this] at hl
      exact Option.noConfusion hl

lemma rehash_lookup {K V : Type} [DecidableEq K] (n : ℕ) (m : UMap K V)
    (hwf : WF m) (k : K) : mlookup (rehash n m) k = mlookup m k :=
  mlookup_ext m (rehash n m) hwf (rehash_WF n m hwf) (rehash_flatten_perm n m) k

/-! ## Lemmas: the shared capacity check -/

lemma afterGrow_size {K V : Type} (m : UMap K V) : (afterGrow m).size = m.size := by
  unfold afterGrow
  split <;> rfl

lemma afterGrow_h {K V : Type} (m : UMap K V) : (afterGrow m).h = m.h := by
  unfold afterGrow
  split <;> rfl

lemma afterGrow_mlf {K V : Type} (m : UMap K V) : (afterGrow m).mlf = m.mlf := by
  unfold afterGrow
  split <;> rfl

lemma afterGrow_WF {K V : Type} (m : UMap K V) (hwf : WF m) : WF (afterGrow m) := by
  unfold afterGrow
  split
  · exact rehash_WF _ m hwf
  · exact hwf

lemma afterGrow_lookup {K V : Type} [DecidableEq K] (m : UMap K V) (hwf : WF m)
    (k : K) : mlookup (afterGrow m) k = mlookup m k := by
  unfold afterGrow
  split
  · exact rehash_lookup _ m hwf k
  · rfl

lemma afterGrow_bpos {K V : Type} (m : UMap K V) (hb : 1 ≤ m.A.length) :
    1 ≤ (afterGrow m).A.length := by
  unfold afterGrow
  split
  · have := rehash_bpos (m.size * 2) m
    omega
  · exact hb

/-! ## Lemmas: the fresh map -/

lemma WF_mkMap {K V : Type} (n : ℕ) (hs : K → ℕ) : WF (mkMap n hs : UMap K V) := by
  refine ⟨?_, ?_, ?_, ?_, ?_⟩
  · show 1 ≤ (List.replicate (nextPrime n) ([] : List (K × V))).length
    rw [List.length_replicate]
    have := nextPrime_two_le n
    omega
  · intro i _ q hq
    rw [show (mkMap n hs : UMap K V).A = List.replicate (nextPrime n) [] from rfl,
      getD_replicate_nil] at hq
    exact absurd hq (List.not_mem_nil q)
  · show ((List.replicate (nextPrime n) ([] : List (K × V))).flatten.map Prod.fst).Nodup
    rw [flatten_replicate_nil]
    exact List.nodup_nil
  · show 0 = (List.replicate (nextPrime n) ([] : List (K × V))).flatten.length
    rw [flatten_replicate_nil]
    rfl
  · norm_num [mkMap]

lemma mkMap_lookup {K V : Type} [DecidableEq K] (n : ℕ) (hs : K → ℕ) (k : K) :
    mlookup (mkMap n hs : UMap K V) k = none := by
  unfold mlookup
  rw [show (mkMap n hs : UMap K V).A = List.replicate (nextPrime n) [] from rfl,
    getD_replicate_nil]
  rfl

/-! ## Lemmas: insert -/

lemma insertModel_def {K V : Type} [DecidableEq K] (m : UMap K V) (p : K × V) :
    insertModel m p =
      (if ((afterGrow m).A.getD ((afterGrow m).h p.1 % (afterGrow m).A.length) []).any
          (fun q => q.1 == p.1) = true then
        (afterGrow m,
          ((afterGrow m).h p.1 % (afterGrow m).A.length,
            ((afterGrow m).A.getD
              ((afterGrow m).h p.1 % (afterGrow m).A.length) []).dropWhile
              (fun q => !(q.1 == p.1))),
          false)
      else
        ({ A := (afterGrow m).A.set ((afterGrow m).h p.1 % (afterGrow m).A.length)
              (p :: (afterGrow m).A.getD ((afterGrow m).h p.1 % (afterGrow m).A.length) []),
           h := (afterGrow m).h, size := (afterGrow m).size + 1, mlf := (afterGrow m).mlf },
          ((afterGrow m).h p.1 % (afterGrow m).A.length,
            (afterGrow m).A.getD ((afterGrow m).h p.1 % (afterGrow m).A.length) []),
          true)) := rfl

lemma chain_any_of_lookup_some {K V : Type} [DecidableEq K] (m1 : UMap K V)
    (k : K) (v : V) (hv : mlookup m1 k = some v) :
    ((m1.A.getD (m1.h k % m1.A.length) []).any (fun q => q.1 == k)) = true := by
  unfold mlookup at hv
  obtain ⟨q, hfind, _⟩ := Option.map_eq_some'.mp hv
  rw [List.any_eq_true]
  refine ⟨q, List.mem_of_find?_eq_some hfind, ?_⟩
  have hpred : (q.1 == k) = true := by simpa using List.find?_some hfind
  exact hpred

lemma chain_any_of_lookup_none {K V : Type} [DecidableEq K] (m1 : UMap K V)
    (k : K) (hnone : mlookup m1 k = none) :
    ((m1.A.getD (m1.h k % m1.A.length) []).any (fun q => q.1 == k)) = false := by
  cases hany : ((m1.A.getD (m1.h k % m1.A.length) []).any (fun q => q.1 == k)) with
  | false => rfl
  | true =>
    exfalso
    obtain ⟨q, hqm, hqp⟩ := List.any_eq_true.mp hany
    have hs : ((m1.A.getD (m1.h k % m1.A.length) []).find?
        (fun q => q.1 == k)).isSome := List.find?_isSome.mpr ⟨q, hqm, hqp⟩
    have hs2 : (mlookup m1 k).isSome := by
      unfold mlookup
      rw [Option.isSome_map']
      exact hs
    rw [hnone] at hs2
    exact Bool.noConfusion hs2

lemma head?_dropWhile_of_find? {α : Type} (pr : α → Bool) :
    ∀ (l : List α) (a : α), l.find? pr = some a →
      (l.dropWhile (fun x => !pr x)).head? = some a := by
  intro l
  induction l with
  | nil => intro a h; exact Option.noConfusion h
  | cons x xs ih =>
    intro a h
    cases hx : pr x with
    | true =>
      rw [List.find?_cons_of_pos _ hx] at h
      have hxa : x = a := Option.some.inj h
      subst hxa
      rw [List.dropWhile_cons]
      simp [hx]
    | false =>
      rw [List.find?_cons_of_neg _ (by simp [hx])] at h
      rw [List.dropWhile_cons]
      simp only [hx, Bool.not_false, if_true]
      exact ih a h

lemma mlookup_build {K V : Type} [DecidableEq K] (A : List (List (K × V)))
    (hs : K → ℕ) (sz : ℕ) (q : ℚ) (k : K) :
    mlookup { A := A, h := hs, size := sz, mlf := q } k =
      ((A.getD (hs k % A.length) []).find? (fun r => r.1 == k)).map (fun r => r.2) := rfl

lemma insert_found_facts {K V : Type} [DecidableEq K] (m : UMap K V) (p : K × V)
    (v : V) (hwf : WF m) (hv : mlookup m p.1 = some v) :
    (insertModel m p).1 = afterGrow m ∧ (insertModel m p).2.2 = false ∧
    (insertModel m p).2.1.2.head? = some (p.1, v) := by
  have hv1 : mlookup (afterGrow m) p.1 = some v := by
    rw [afterGrow_lookup m hwf]
    exact hv
  have hany := chain_any_of_lookup_some (afterGrow m) p.1 v hv1
  rw [insertModel_def, if_pos hany]
  refine ⟨rfl, rfl, ?_⟩
  unfold mlookup at hv1
  obtain ⟨q, hfind, hq2⟩ := Option.map_eq_some'.mp hv1
  have hqk : q.1 = p.1 := by simpa using List.find?_some hfind
  have hq : q = (p.1, v) := by
    obtain ⟨a, b⟩ := q
    simp only at hqk hq2
    rw [hqk, hq2]
  rw [← hq]
  exact head?_dropWhile_of_find? _ _ q hfind

lemma insert_new_facts {K V : Type} [DecidableEq K] (m : UMap K V) (p : K × V)
    (hwf : WF m) (hnone : mlookup m p.1 = none) :
    (insertModel m p).2.2 = true ∧
    (insertModel m p).1.size = m.size + 1 ∧
    mlookup (insertModel m p).1 p.1 = some p.2 ∧
    (∀ k, k ≠ p.1 → mlookup (insertModel m p).1 k = mlookup m k) ∧
    (insertModel m p).1.A.getD (insertModel m p).2.1.1 [] = p :: (insertModel m p).2.1.2 ∧
    WF (insertModel m p).1 := by
  have hwf1 : WF (afterGrow m) := afterGrow_WF m hwf
  have hnone1 : mlookup (afterGrow m) p.1 = none := by
    rw [afterGrow_lookup m hwf]
    exact hnone
  have hany := chain_any_of_lookup_none (afterGrow m) p.1 hnone1
  have hb1 : 1 ≤ (afterGrow m).A.length := hwf1.1
  have hi : (afterGrow m).h p.1 % (afterGrow m).A.length < (afterGrow m).A.length :=
    Nat.mod_lt _ (by omega)
  rw [insertModel_def, if_neg (by rw [hany]; exact Bool.noConfusion)]
  set m1 := afterGrow m with hm1
  set i := m1.h p.1 % m1.A.length with hidef
  set chain := m1.A.getD i [] with hchaindef
  have hsetA : m1.A.set i (p :: chain) = insertAt m1.A i p := rfl
  have hlen2 : (m1.A.set i (p :: chain)).length = m1.A.length := List.length_set ..
  have hflat : ((m1.A.set i (p :: chain)).flatten).Perm (p :: m1.A.flatten) := by
    rw [hsetA]
    exact insertAt_flatten_perm m1.A i p hi
  have hgd_self : (m1.A.set i (p :: chain)).getD i [] = p :: chain := by
    rw [hsetA]
    exact insertAt_getD_self m1.A i p hi
  have hgd_ne : ∀ j, j ≠ i → (m1.A.set i (p :: chain)).getD j [] = m1.A.getD j [] := by
    intro j hj
    rw [hsetA]
    exact insertAt_getD_ne m1.A i j p (fun he => hj he.symm)
  refine ⟨rfl, ?_, ?_, ?_, ?_, ?_⟩
  · show m1.size + 1 = m.size + 1
    rw [hm1, afterGrow_size]
  · rw [mlookup_build, List.length_set, ← hidef, hgd_self,
      List.find?_cons_of_pos _ (by simp)]
    rfl
  · intro k hk
    rw [mlookup_build, List.length_set, ← afterGrow_lookup m hwf k, ← hm1]
    by_cases hik : m1.h k % m1.A.length = i
    · rw [hik, hgd_self,
        List.find?_cons_of_neg _ (by simp only [beq_iff_eq]; exact fun he => hk he.symm)]
      rw [hchaindef, ← hik]
      rfl
    · rw [hgd_ne _ hik]
      rfl
  · show (m1.A.set i (p :: chain)).getD i [] = p :: chain
    exact hgd_self
  · have hwf1c : WF m1 := hwf1
    obtain ⟨_, hplace1, hnd1, hsize1, hmlf1⟩ := hwf1c
    refine ⟨?_, ?_, ?_, ?_, ?_⟩
    · show 1 ≤ (m1.A.set i (p :: chain)).length
      rw [hlen2]
      exact hb1
    · intro j hj q hq
      rw [hlen2] at hj
      show m1.h q.1 % (m1.A.set i (p :: chain)).length = j
      rw [hlen2]
      by_cases hji : j = i
      · rw [hji] at hq
        rw [hgd_self] at hq
        rcases List.mem_cons.mp hq with hq1 | hq2
        · rw [hq1, hji]
        · rw [hji]
          apply hplace1 i hi q
          rw [hchaindef] at hq2
          exact hq2
      · rw [hgd_ne j hji] at hq
        exact hplace1 j hj q hq
    · show ((m1.A.set i (p :: chain)).flatten.map Prod.fst).Nodup
      rw [(hflat.map Prod.fst).nodup_iff, List.map_cons, List.nodup_cons]
      refine ⟨?_, hnd1⟩
      intro hmem
      obtain ⟨q, hqfl, hq1⟩ := List.mem_map.mp hmem
      obtain ⟨a, b⟩ := q
      simp only at hq1
      rw [hq1] at hqfl
      rw [← mlookup_eq_some_iff m1 hwf1] at hqfl
      rw [hnone1] at hqfl
      exact Option.noConfusion hqfl
    · show m1.size + 1 = (m1.A.set i (p :: chain)).flatten.length
      rw [hflat.length_eq, List.length_cons, hsize1]
    · exact hmlf1

lemma insert_WF {K V : Type} [DecidableEq K] (m : UMap K V) (p : K × V)
    (hwf : WF m) : WF (insertModel m p).1 := by
  cases hl : mlookup m p.1 with
  | some v =>
    rw [(insert_found_facts m p v hwf hl).1]
    exact afterGrow_WF m hwf
  | none => exact (insert_new_facts m p hwf hl).2.2.2.2.2

lemma insert_lookup_some {K V : Type} [DecidableEq K] (m : UMap K V) (p : K × V)
    (k : K) (v : V) (hwf : WF m) (hv : mlookup m k = some v) :
    mlookup (insertModel m p).1 k = some v := by
  cases hl : mlookup m p.1 with
  | some w =>
    rw [(insert_found_facts m p w hwf hl).1, afterGrow_lookup m hwf]
    exact hv
  | none =>
    by_cases hk : k = p.1
    · rw [hk] at hv
      rw [hv] at hl
      exact Option.noConfusion hl
    · rw [(insert_new_facts m p hwf hl).2.2.2.1 k hk]
      exact hv

lemma insert_lookup_other {K V : Type} [DecidableEq K] (m : UMap K V) (p : K × V)
    (k : K) (hwf : WF m) (hk : k ≠ p.1) :
    mlookup (insertModel m p).1 k = mlookup m k := by
  cases hl : mlookup m p.1 with
  | some w =>
    rw [(insert_found_facts m p w hwf hl).1, afterGrow_lookup m hwf]
  | none => exact (insert_new_facts m p hwf hl).2.2.2.1 k hk

lemma insertAll_WF {K V : Type} [DecidableEq K] :
    ∀ (ps : List (K × V)) (m : UMap K V), WF m → WF (insertAll m ps) := by
  intro ps
  induction ps with
  | nil => intro m hwf; exact hwf
  | cons p ps ih =>
    intro m hwf
    rw [show insertAll m (p :: ps) = insertAll (insertModel m p).1 ps from rfl]
    exact ih _ (insert_WF m p hwf)

lemma insertAll_lookup_some {K V : Type} [DecidableEq K] :
    ∀ (ps : List (K × V)) (m : UMap K V) (k : K) (v : V), WF m →
      mlookup m k = some v → mlookup (insertAll m ps) k = some v := by
  intro ps
  induction ps with
  | nil => intro m k v _ hv; exact hv
  | cons p ps ih =>
    intro m k v hwf hv
    rw [show insertAll m (p :: ps) = insertAll (insertModel m p).1 ps from rfl]
    exact ih _ k v (insert_WF m p hwf) (insert_lookup_some m p k v hwf hv)

lemma insertAll_lookup_of_none {K V : Type} [DecidableEq K] :
    ∀ (ps : List (K × V)) (m : UMap K V) (k : K), WF m →
      mlookup m k = none →
      mlookup (insertAll m ps) k = (ps.find? (fun q => q.1 == k)).map (fun q => q.2) := by
  intro ps
  induction ps with
  | nil => intro m k _ hnone; exact hnone
  | cons p ps ih =>
    intro m k hwf hnone
    rw [show insertAll m (p :: ps) = insertAll (insertModel m p).1 ps from rfl]
    by_cases hk : p.1 = k
    · have hpn : mlookup m p.1 = none := by rw [hk]; exact hnone
      have hfacts := insert_new_facts m p hwf hpn
      have hv2 : mlookup (insertModel m p).1 k = some p.2 := by
        rw [← hk]
        exact hfacts.2.2.1
      rw [insertAll_lookup_some ps _ k p.2 (insert_WF m p hwf) hv2,
        List.find?_cons_of_pos _ (by simp [hk])]
      rfl
    · have hnone2 : mlookup (insertModel m p).1 k = none := by
        rw [insert_lookup_other m p k hwf (fun he => hk he.symm)]
        exact hnone
      rw [ih _ k (insert_WF m p hwf) hnone2,
        List.find?_cons_of_neg _ (by simp [hk])]

/-! ## Lemmas: the do-while find locates present keys -/

lemma findScanPos_of_find? {K V : Type} [DecidableEq K] (k : K) :
    ∀ (l : List (K × V)) (q : K × V), l.find? (fun r => r.1 == k) = some q →
      ∃ rest, findScanPos k l = some (q :: rest) := by
  intro l
  induction l with
  | nil => intro q h; exact Option.noConfusion h
  | cons x xs ih =>
    intro q h
    by_cases hx : x.1 = k
    · rw [List.find?_cons_of_pos _ (by simp [hx])] at h
      have hxq : x = q := Option.some.inj h
      refine ⟨xs, ?_⟩
      show (if x.1 = k then some (x :: xs) else _) = some (q :: xs)
      rw [if_pos hx, hxq]
    · rw [List.find?_cons_of_neg _ (by simp [hx])] at h
      cases xs with
      | nil => exact Option.noConfusion h
      | cons y ys =>
        obtain ⟨rest, hrest⟩ := ih q h
        refine ⟨rest, ?_⟩
        show (if x.1 = k then some (x :: y :: ys) else findScanPos k (y :: ys)) =
          some (q :: rest)
        rw [if_neg hx]
        exact hrest

lemma findIter_of_lookup {K V : Type} [DecidableEq K] (m : UMap K V) (k : K)
    (v : V) (hv : mlookup m k = some v) :
    (findIter m k).map (fun r => r.2.head?) = some (some (k, v)) := by
  unfold mlookup at hv
  obtain ⟨q, hfind, hq2⟩ := Option.map_eq_some'.mp hv
  have hqk : q.1 = k := by simpa using List.find?_some hfind
  have hq : q = (k, v) := by
    obtain ⟨a, b⟩ := q
    simp only at hqk hq2
    rw [hqk, hq2]
  obtain ⟨rest, hrest⟩ := findScanPos_of_find? k _ q hfind
  unfold findIter
  rw [hrest, hq]
  rfl

/-! ## Claim theorems: C1, C3 -/

/-- Claim C1 (counterexample): rehash(2 ^ 40) on a freshly constructed map (a
directly reachable call) crashes instead of redistributing: the adjusted
candidate 2 ^ 40 is handed to the next-prime search, whose 32-bit counter
wraps to 0 at the first prime candidate and divides by zero (none), before
any pair is moved — so the claim does not hold for every call rehash(n). -/
theorem rehash_crashes_on_large_request :
    rehashU (2 ^ 40) (mkMap 1 (fun x => x) : UMap ℕ ℕ) = none := by
  have h2 : (mkMap 1 (fun x => x) : UMap ℕ ℕ).size = 0 := rfl
  have h3 : (mkMap 1 (fun x => x) : UMap ℕ ℕ).mlf = 1 := rfl
  have hN : rehashN (mkMap 1 (fun x => x) : UMap ℕ ℕ) (2 ^ 40) = 2 ^ 40 := by
    rw [rehashN_def, h2, h3]
    norm_num
  unfold rehashU
  rw [hN, nextPrimeU_none_of_large _ (by norm_num)]
  rfl

/-- Claim C1 (amended): for every call rehash(n) whose adjusted candidate
stays at most 2 ^ 32 (so the 32-bit counter of the next-prime search cannot
wrap; in particular every rehash a physically realizable map can trigger
internally), the faithful rehash succeeds and equals the modelled one, and it
stores exactly the pairs stored before (a permutation: none dropped, none
duplicated), each in bucket hash(key) mod the new bucket_count, with
currentSize and the stored pair count unchanged; consequently, after any
sequence of insertions into a fresh map (rehashes included), find(k) locates,
for every key k occurring in the sequence, the pair holding the first value
inserted for k. -/
theorem rehash_preserves_pairs {K V : Type} [DecidableEq K] (m : UMap K V) (n : ℕ)
    (hn : rehashN m n ≤ 2 ^ 32) :
    rehashU n m = some (rehash n m) ∧
    ((rehash n m).A.flatten).Perm m.A.flatten ∧
    (∀ i q, q ∈ (rehash n m).A.getD i [] →
      (rehash n m).h q.1 % (rehash n m).A.length = i) ∧
    (rehash n m).size = m.size ∧
    (rehash n m).A.flatten.length = m.A.flatten.length ∧
    (∀ (hs : K → ℕ) (n0 : ℕ) (ps : List (K × V)) (k : K) (q : K × V),
      ps.find? (fun r => r.1 == k) = some q →
      (findIter (insertAll (mkMap n0 hs) ps) k).map (fun r => r.2.head?) =
        some (some (k, q.2))) := by
  refine ⟨?_, rehash_flatten_perm n m, ?_, rehash_size n m,
    (rehash_flatten_perm n m).length_eq, ?_⟩
  · unfold rehashU
    rw [nextPrimeU_eq_of_small _ hn]
    rfl
  · intro i q hq
    rw [rehash_h]
    exact rehash_placement n m i q hq
  · intro hs n0 ps k q hfind
    have hq1 : q.1 = k := by simpa using List.find?_some hfind
    have hlk : mlookup (insertAll (mkMap n0 hs : UMap K V) ps) k = some q.2 := by
      rw [insertAll_lookup_of_none ps _ k (WF_mkMap n0 hs) (mkMap_lookup n0 hs k), hfind]
      rfl
    exact findIter_of_lookup _ k q.2 hlk

/-- Witness for rehash_preserves_pairs: rehash(0) on a fresh identity-hash map
keeps its adjusted candidate at 1, far within the bound, and after inserting
(0, 5) and (1, 6) find(1) lands on the pair (1, 6). -/
theorem rehash_preserves_pairs_witness :
    rehashU 0 (mkMap 1 (fun x => x) : UMap ℕ ℕ) =
      some (rehash 0 (mkMap 1 (fun x => x) : UMap ℕ ℕ)) ∧
    (findIter (insertAll (mkMap 1 (fun x => x) : UMap ℕ ℕ) [(0, 5), (1, 6)]) 1).map
      (fun r => r.2.head?) = some (some (1, 6)) :=
  have hb : rehashN (mkMap 1 (fun x => x) : UMap ℕ ℕ) 0 ≤ 2 ^ 32 := by
    have h2 : (mkMap 1 (fun x => x) : UMap ℕ ℕ).size = 0 := rfl
    have h3 : (mkMap 1 (fun x => x) : UMap ℕ ℕ).mlf = 1 := rfl
    rw [rehashN_def, h2, h3]
    norm_num
  ⟨(rehash_preserves_pairs (mkMap 1 (fun x => x) : UMap ℕ ℕ) 0 hb).1,
   (rehash_preserves_pairs (mkMap 1 (fun x => x) : UMap ℕ ℕ) 0 hb).2.2.2.2.2
     (fun x => x) 1 [(0, 5), (1, 6)] 1 (1, 6) (by decide)⟩

/-- Claim C3 (counterexample): inserting a brand-new key into a fresh map
reports inserted = true and the new pair does sit at the front of its bucket,
but the returned position is the null suffix [] (iterator captured at the
pre-insertion begin of the then-empty bucket), not the position of the new
pair, which would be the suffix [(0, 5)]. -/
theorem insert_returns_stale_position :
    (insertModel (mkMap 1 (fun x => x) : UMap ℕ ℕ) (0, 5)).2.2 = true ∧
    (insertModel (mkMap 1 (fun x => x) : UMap ℕ ℕ) (0, 5)).1.A.getD 0 [] = [(0, 5)] ∧
    (insertModel (mkMap 1 (fun x => x) : UMap ℕ ℕ) (0, 5)).2.1.2 = [] := by
  have hc : ¬ ((mkMap 1 (fun x => x) : UMap ℕ ℕ).mlf ≤
      (((mkMap 1 (fun x => x) : UMap ℕ ℕ).size : ℕ) : ℚ) /
        (((mkMap 1 (fun x => x) : UMap ℕ ℕ).A.length : ℕ) : ℚ)) := by
    have h1 : (mkMap 1 (fun x => x) : UMap ℕ ℕ).mlf = 1 := rfl
    have h2 : (mkMap 1 (fun x => x) : UMap ℕ ℕ).size = 0 := rfl
    have h3 : (mkMap 1 (fun x => x) : UMap ℕ ℕ).A.length = 2 := rfl
    rw [h1, h2, h3]
    norm_num
  have hgrow : afterGrow (mkMap 1 (fun x => x) : UMap ℕ ℕ) = mkMap 1 (fun x => x) := by
    unfold afterGrow
    rw [if_neg hc]
  rw [insertModel_def, hgrow]
  exact ⟨rfl, rfl, rfl⟩

/-- Claim C3 (amended): if the key of p is already stored with value v,
insert(p) creates no pair, leaves size() and every lookup unchanged (the
stored value is never overwritten) and returns inserted = false with a
position at the existing entry; if the key is new, insert(p) pushes p to the
front of its bucket, increments size() by one, makes the key look up p.2
while other keys are untouched, and returns inserted = true paired with a
position at the PRE-insertion head of the bucket (the null position for a
previously empty bucket), not the position of the new pair. -/
theorem insert_spec {K V : Type} [DecidableEq K] (m : UMap K V) (hwf : WF m)
    (p : K × V) :
    (∀ v, mlookup m p.1 = some v →
      (insertModel m p).2.2 = false ∧
      (insertModel m p).1.size = m.size ∧
      (∀ k, mlookup (insertModel m p).1 k = mlookup m k) ∧
      (insertModel m p).2.1.2.head? = some (p.1, v)) ∧
    (mlookup m p.1 = none →
      (insertModel m p).2.2 = true ∧
      (insertModel m p).1.size = m.size + 1 ∧
      mlookup (insertModel m p).1 p.1 = some p.2 ∧
      (∀ k, k ≠ p.1 → mlookup (insertModel m p).1 k = mlookup m k) ∧
      (insertModel m p).1.A.getD (insertModel m p).2.1.1 [] =
        p :: (insertModel m p).2.1.2) := by
  constructor
  · intro v hv
    obtain ⟨he, hflag, hhead⟩ := insert_found_facts m p v hwf hv
    refine ⟨hflag, ?_, ?_, hhead⟩
    · rw [he, afterGrow_size]
    · intro k
      rw [he, afterGrow_lookup m hwf]
  · intro hnone
    obtain ⟨h1, h2, h3, h4, h5, _⟩ := insert_new_facts m p hwf hnone
    exact ⟨h1, h2, h3, h4, h5⟩

/-- Witness for insert_spec: inserting key 2 into a fresh identity-hash map
increments size to 1, reports inserted = true, and the key looks up its
value afterwards. -/
theorem insert_spec_witness :
    (insertModel (mkMap 1 (fun x => x) : UMap ℕ ℕ) (2, 9)).2.2 = true ∧
    (insertModel (mkMap 1 (fun x => x) : UMap ℕ ℕ) (2, 9)).1.size = 0 + 1 ∧
    mlookup (insertModel (mkMap 1 (fun x => x) : UMap ℕ ℕ) (2, 9)).1 2 = some 9 :=
  have h := (insert_spec (mkMap 1 (fun x => x) : UMap ℕ ℕ)
    (WF_mkMap 1 (fun x => x)) (2, 9)).2 (mkMap_lookup 1 (fun x => x) 2)
  ⟨h.1, h.2.1, h.2.2.1⟩

/-! ## Lemmas: the load factor after one insertion (default setting) -/

lemma afterGrow_cond_iff {K V : Type} (m : UMap K V) (hm : m.mlf = 1)
    (hb : 1 ≤ m.A.length) :
    (m.mlf ≤ (m.size : ℚ) / (m.A.length : ℚ)) ↔ m.A.length ≤ m.size := by
  have hbq : (0 : ℚ) < (m.A.length : ℚ) := by
    have : 0 < m.A.length := by omega
    exact_mod_cast this
  rw [hm, one_le_div hbq]
  exact_mod_cast Iff.rfl

lemma afterGrow_len_lower {K V : Type} (m : UMap K V) (hm : m.mlf = 1)
    (hb : 1 ≤ m.A.length) : m.size + 1 ≤ (afterGrow m).A.length := by
  unfold afterGrow
  by_cases hc : m.mlf ≤ (m.size : ℚ) / (m.A.length : ℚ)
  · rw [if_pos hc]
    have hbs : m.A.length ≤ m.size := (afterGrow_cond_iff m hm hb).mp hc
    have hs1 : 1 ≤ m.size := by omega
    have h20 : ¬ (m.size * 2 = 0) := by omega
    have hnc : ¬ ((((if m.size * 2 = 0 then 1 else m.size * 2) : ℕ) : ℚ) <
        (m.size : ℚ) / m.mlf) := by
      rw [if_neg h20, hm, div_one]
      intro hcon
      have : m.size * 2 < m.size := by exact_mod_cast hcon
      omega
    have hN : rehashN m (m.size * 2) = m.size * 2 := by
      rw [rehashN_def, if_neg hnc, if_neg h20]
    rw [rehash_length, hN]
    have := nextPrime_ge (m.size * 2)
    omega
  · rw [if_neg hc]
    have : ¬ (m.A.length ≤ m.size) := fun hle => hc ((afterGrow_cond_iff m hm hb).mpr hle)
    omega

lemma insert_size_len_mlf {K V : Type} [DecidableEq K] (m : UMap K V) (p : K × V) :
    (insertModel m p).1.size ≤ (afterGrow m).size + 1 ∧
    (insertModel m p).1.A.length = (afterGrow m).A.length ∧
    (insertModel m p).1.mlf = (afterGrow m).mlf := by
  rw [insertModel_def]
  split
  · exact ⟨Nat.le_succ _, rfl, rfl⟩
  · exact ⟨le_refl _, List.length_set .., rfl⟩

lemma subscriptModel_def {K V : Type} [DecidableEq K] (m : UMap K V) (k : K) (d : V) :
    subscriptModel m k d =
      (match ((afterGrow m).A.getD ((afterGrow m).h k % (afterGrow m).A.length) []).find?
          (fun q => q.1 == k) with
      | some q => (afterGrow m, q.2)
      | none =>
        ({ A := (afterGrow m).A.set ((afterGrow m).h k % (afterGrow m).A.length)
              ((k, d) :: (afterGrow m).A.getD ((afterGrow m).h k % (afterGrow m).A.length) []),
           h := (afterGrow m).h, size := (afterGrow m).size + 1,
           mlf := (afterGrow m).mlf }, d)) := rfl

lemma subscript_size_len_mlf {K V : Type} [DecidableEq K] (m : UMap K V) (k : K) (d : V) :
    (subscriptModel m k d).1.size ≤ (afterGrow m).size + 1 ∧
    (subscriptModel m k d).1.A.length = (afterGrow m).A.length ∧
    (subscriptModel m k d).1.mlf = (afterGrow m).mlf := by
  rw [subscriptModel_def]
  split
  · exact ⟨Nat.le_succ _, rfl, rfl⟩
  · exact ⟨le_refl _, List.length_set .., rfl⟩

lemma load_factor_le_one_of {K V : Type} (m : UMap K V) (m2 : UMap K V)
    (hm : m.mlf = 1) (hb : 1 ≤ m.A.length)
    (hsz : m2.size ≤ (afterGrow m).size + 1)
    (hlen : m2.A.length = (afterGrow m).A.length)
    (hmlf : m2.mlf = (afterGrow m).mlf) : loadFactor m2 ≤ m2.mlf := by
  have hlow := afterGrow_len_lower m hm hb
  have hag : (afterGrow m).size = m.size := afterGrow_size m
  have hsz2 : m2.size ≤ m2.A.length := by
    rw [hlen]
    omega
  have hpos : 0 < m2.A.length := by
    have := afterGrow_bpos m hb
    rw [hlen]
    omega
  unfold loadFactor
  rw [hmlf, afterGrow_mlf, hm, div_le_one (by exact_mod_cast hpos)]
  exact_mod_cast hsz2

/-! ## Claim theorems: C4 -/

/-- Claim C4 (counterexample): a reachable map state with max_load_factor 0.2,
two buckets and no pairs does not trigger the capacity check (load factor 0),
yet immediately after insert completes the load factor is 1/2 > 1/5: the check
uses the PRE-insertion size, so the invariant fails for small
max_load_factor settings. -/
theorem load_factor_violated_after_insert :
    ¬ (loadFactor (insertModel mLowMap (0, 0)).1 ≤ (insertModel mLowMap (0, 0)).1.mlf) := by
  have hc : ¬ (mLowMap.mlf ≤ ((mLowMap.size : ℕ) : ℚ) / ((mLowMap.A.length : ℕ) : ℚ)) := by
    have h1 : mLowMap.mlf = 1 / 5 := rfl
    have h2 : mLowMap.size = 0 := rfl
    have h3 : mLowMap.A.length = 2 := rfl
    rw [h1, h2, h3]
    norm_num
  have hgrow : afterGrow mLowMap = mLowMap := by
    unfold afterGrow
    rw [if_neg hc]
  rw [insertModel_def, hgrow]
  rw [if_neg (by decide :
    ¬ ((mLowMap.A.getD (mLowMap.h (0, 0).1 % mLowMap.A.length) []).any
      (fun q => q.1 == (0, 0).1) = true))]
  norm_num [loadFactor, mLowMap, List.length_set]

/-- Claim C4 (amended): with the DEFAULT max_load_factor 1.0, on any map state
with at least one bucket, the invariant load_factor() <= max_load_factor()
holds immediately after an insert or a subscript access completes; the repair
step rehash(2 * currentSize) run before the insertion suffices only for this
setting, because the check compares the pre-insertion size. -/
theorem load_factor_after_insert {K V : Type} [DecidableEq K] (m : UMap K V)
    (p : K × V) (k : K) (d : V) (hb : 1 ≤ m.A.length) (hm : m.mlf = 1) :
    loadFactor (insertModel m p).1 ≤ (insertModel m p).1.mlf ∧
    loadFactor (subscriptModel m k d).1 ≤ (subscriptModel m k d).1.mlf := by
  obtain ⟨ha1, ha2, ha3⟩ := insert_size_len_mlf m p
  obtain ⟨hb1, hb2, hb3⟩ := subscript_size_len_mlf m k d
  exact ⟨load_factor_le_one_of m _ hm hb ha1 ha2 ha3,
    load_factor_le_one_of m _ hm hb hb1 hb2 hb3⟩

/-- Witness for load_factor_after_insert: a fresh identity-hash map receiving
one insert and one subscript access keeps its load factor at or below 1. -/
theorem load_factor_after_insert_witness :
    loadFactor (insertModel (mkMap 1 (fun x => x) : UMap ℕ ℕ) (0, 5)).1 ≤
      (insertModel (mkMap 1 (fun x => x) : UMap ℕ ℕ) (0, 5)).1.mlf ∧
    loadFactor (subscriptModel (mkMap 1 (fun x => x) : UMap ℕ ℕ) 3 7).1 ≤
      (subscriptModel (mkMap 1 (fun x => x) : UMap ℕ ℕ) 3 7).1.mlf :=
  load_factor_after_insert (mkMap 1 (fun x => x) : UMap ℕ ℕ) (0, 5) 3 7
    (by decide) rfl

/-! ## Lemmas: composite iteration -/

lemma travGo_end {P : Type} (A : List (List P)) (fuel : ℕ) :
    travGo A (fuel + 1) (A.length, []) = some [] := by
  show (if A.length = A.length then some [] else none) = some []
  rw [if_pos rfl]

lemma travGo_firstPos {P : Type} (A : List (List P)) (fuel : ℕ)
    (hP : ∀ (i : ℕ) (pos : List P), i < A.length → pos ≠ [] →
      pos.length + ((A.drop (i + 1)).flatten).length + 1 ≤ fuel →
      travGo A fuel (i, pos) = some (pos ++ (A.drop (i + 1)).flatten)) :
    ∀ (L : List (List P)) (j : ℕ), A.drop j = L → j ≤ A.length →
      L.flatten.length + 1 ≤ fuel →
      travGo A fuel (firstPos L j) = some L.flatten := by
  intro L
  induction L with
  | nil =>
    intro j hdrop hj hfuel
    have hlen : A.length ≤ j := List.drop_eq_nil_iff.mp hdrop
    have hj2 : j = A.length := by omega
    subst hj2
    cases fuel with
    | zero => exact absurd hfuel (by omega)
    | succ fuel2 => exact travGo_end A fuel2
  | cons c rest ih =>
    intro j hdrop hj hfuel
    have hjlt : j < A.length := by
      by_contra hge
      have hnil : A.drop j = [] := List.drop_eq_nil_iff.mpr (by omega)
      rw [hnil] at hdrop
      exact List.noConfusion hdrop
    have hdrop1 : A.drop (j + 1) = rest := by
      rw [← List.tail_drop, hdrop, List.tail_cons]
    cases c with
    | nil =>
      show travGo A fuel (firstPos rest (j + 1)) = some ([] :: rest).flatten
      have hres := ih (j + 1) hdrop1 (by omega)
        (by rw [List.flatten_cons] at hfuel; simpa using hfuel)
      simpa using hres
    | cons p c2 =>
      show travGo A fuel (j, p :: c2) = some ((p :: c2) :: rest).flatten
      have hfb : (p :: c2).length + ((A.drop (j + 1)).flatten).length + 1 ≤ fuel := by
        rw [hdrop1]
        have hfl : ((p :: c2) :: rest).flatten.length =
            (p :: c2).length + rest.flatten.length := by
          rw [List.flatten_cons, List.length_append]
        omega
      have hres := hP j (p :: c2) hjlt (by simp) hfb
      rw [hres, hdrop1, List.flatten_cons]

lemma travGo_chain {P : Type} (A : List (List P)) :
    ∀ (fuel : ℕ) (i : ℕ) (pos : List P), i < A.length → pos ≠ [] →
      pos.length + ((A.drop (i + 1)).flatten).length + 1 ≤ fuel →
      travGo A fuel (i, pos) = some (pos ++ (A.drop (i + 1)).flatten) := by
  intro fuel
  induction fuel with
  | zero => intro i pos _ _ hf; exact absurd hf (by omega)
  | succ fuel ih =>
    intro i pos hi hpos hf
    cases pos with
    | nil => exact absurd rfl hpos
    | cons p rest =>
      cases rest with
      | nil =>
        show (travGo A fuel (firstPos (A.drop (i + 1)) (i + 1))).map (fun l => p :: l) =
          some ((p :: []) ++ (A.drop (i + 1)).flatten)
        have hQ := travGo_firstPos A fuel ih (A.drop (i + 1)) (i + 1) rfl (by omega)
          (by simp only [List.length_cons, List.length_nil] at hf; omega)
        rw [hQ]
        simp
      | cons r rs =>
        show (travGo A fuel (i, r :: rs)).map (fun l => p :: l) =
          some ((p :: r :: rs) ++ (A.drop (i + 1)).flatten)
        have hres := ih i (r :: rs) hi (by simp)
          (by simp only [List.length_cons] at hf ⊢; omega)
        rw [hres]
        simp

/-! ## Claim theorems: C5 -/

/-- Claim C5 (counterexample): on a reachable map whose bucket 0 is empty and
whose only pair sits in bucket 1, begin() is make_iterator(0, A[0].begin()),
a position with the null chain pointer inside bucket 0; iterating from it
dereferences that null position before any skipping happens (none = fault), so
the traversal does not visit the stored pair [(1, 5)]. -/
theorem traverse_faults_on_empty_first_bucket :
    mapTraverse emptyBucketZeroMap = none ∧
    emptyBucketZeroMap.A.flatten = [(1, 5)] := ⟨rfl, rfl⟩

/-- Claim C5 (amended): provided bucket 0 is non-empty (so that begin() hands
out a dereferenceable position), the loop from begin() to end() visits exactly
the live pairs, bucket by bucket, each exactly once, skipping every empty
bucket in between and reaching end() regardless of how many trailing buckets
are empty.  When bucket 0 is empty, begin() holds a null chain position whose
first dereference or increment faults (the counterexample). -/
theorem mapTraverse_visits_all {K V : Type} (m : UMap K V)
    (h0 : m.A.getD 0 [] ≠ []) : mapTraverse m = some m.A.flatten := by
  cases hA : m.A with
  | nil =>
    rw [hA] at h0
    exact absurd rfl h0
  | cons c rest =>
    have hgd : (c :: rest).getD 0 [] = c := rfl
    rw [hA, hgd] at h0
    unfold mapTraverse
    rw [hA, hgd]
    have h0lt : 0 < (c :: rest).length := by simp
    have hdrop : (c :: rest).drop 1 = rest := rfl
    have hbound : c.length + (((c :: rest).drop 1).flatten).length + 1 ≤
        (c :: rest).flatten.length + 1 := by
      rw [hdrop, List.flatten_cons, List.length_append]
    have hres := travGo_chain (c :: rest) ((c :: rest).flatten.length + 1) 0 c
      h0lt h0 hbound
    rw [hres, hdrop, List.flatten_cons]

/-- Witness for mapTraverse_visits_all: three buckets with the middle one
empty; the traversal visits the two live pairs in bucket order. -/
theorem mapTraverse_visits_all_witness :
    mapTraverse travWitnessMap = some [(0, 1), (2, 3)] :=
  mapTraverse_visits_all travWitnessMap (by decide)

end Containers
